import Mathlib

/-!
Verification of the Othello/Reversi engine in `src/reversi/othello.py`.

The Python source is shallowly embedded below.  A board is a total function
from integer coordinates to an optional cell colour (`none` models Python
`None`, i.e. an empty square); the two inner `while` loops of
`is_valid_move` (lines 161-184) and `take_action` (lines 205-231), which are
textually identical scans, are embedded once as the fuel-indexed function
`scanAux`.  The fuel is an artifact of the embedding only: `scan_loops_end`
below proves that for every board and every in-bounds origin the loop exits
through one of its own `break`/`return` paths before the fuel is consumed,
and that the result does not depend on the fuel.
-/

set_option maxRecDepth 4000

/-- Cell colour, from `class Color` (othello.py lines 89-91). -/
inductive Color where
  | black : Color
  | white : Color
deriving DecidableEq, Repr

/-- Board size, from `SIZE = 8` (line 116). -/
def SIZE : Nat := 8

/-- A board maps integer coordinates to an optional colour; Python stores an
8x8 list of lists whose entries are `None` or a `Color`, and the embedded
scans only ever read coordinates inside `[0, 8) x [0, 8)`, exactly as the
guarded Python loops do. -/
abbrev Board := Int → Int → Option Color

/-- The 8 scan directions, from `directions` (line 115). -/
def directions : List (Int × Int) :=
  [(-1, -1), (-1, 0), (-1, 1), (0, -1), (0, 1), (1, -1), (1, 0), (1, 1)]

/-- In-bounds predicate for a coordinate pair, the condition of the Python
`while 0 <= newx < SIZE and 0 <= newy < SIZE` guard. -/
abbrev inBoard (x y : Int) : Prop :=
  0 ≤ x ∧ x < (SIZE : Int) ∧ 0 ≤ y ∧ y < (SIZE : Int)

/-- One directional scan loop, shared text of othello.py lines 165-182 and
lines 213-231.  State: current coordinates `(x, y)` and the counter `cnt` of
opponent cells stepped over so far.  Results: `some (some n)` means the loop
ended via the `cnt != 0` own-colour exit with `cnt = n` (a valid flip run of
length `n`); `some none` means the loop ended via any of its failure exits
(off board, empty cell, or own colour at `cnt = 0`); `none` means the fuel
ran out, which `scan_loops_end` proves never happens from a real start. -/
def scanAux (board : Board) (turn : Color) (dx dy : Int) :
    Nat → Int → Int → Nat → Option (Option Nat)
  | 0, _, _, _ => none
  | fuel + 1, x, y, cnt =>
    if inBoard x y then
      if board x y = none then some none
      else if board x y = some turn then
        if cnt = 0 then some none else some (some cnt)
      else
        scanAux board turn dx dy fuel (x + dx) (y + dy) (cnt + 1)
    else
      some none

/-- Directional scan from a target square: enter the loop one step out, with
`cnt = 0`, as lines 164 and 208 do.  `some n` is a valid run of length `n`. -/
def scanDir (board : Board) (turn : Color) (dx dy : Int) (row col : Int) :
    Option Nat :=
  (scanAux board turn dx dy SIZE (row + dx) (col + dy) 0).getD none

/-- Move legality check, from `is_valid_move` (lines 154-184): false when the
target square is occupied, otherwise true when some direction scan returns
through its `return True` exit. -/
def is_valid_move (row col : Int) (turn : Color) (board : Board) : Bool :=
  if board row col ≠ none then
    false
  else
    directions.any fun d => (scanDir board turn d.1 d.2 row col).isSome

/-- Candidate generation, from `next_steps` (lines 186-192): row-major scan
of the grid collecting the squares for which `is_valid_move` holds. -/
def next_steps (turn : Color) (board : Board) : List (Int × Int) :=
  ((List.range SIZE).flatMap fun i =>
    (List.range SIZE).map fun j => ((i : Int), (j : Int))).filter
    fun p => is_valid_move p.1 p.2 turn board

/-- Pointwise board update, the embedding of `board[x][y] = v`. -/
def setCell (board : Board) (x y : Int) (v : Option Color) : Board :=
  fun i j => if i = x ∧ j = y then v else board i j

/-- Result of `take_action`: the mutated board together with the returned
triple `(b_cnt, w_cnt, t_cnt)` (line 245). -/
structure ActionResult where
  board : Board
  b_cnt : Int
  w_cnt : Int
  t_cnt : Int

/-- The flip loop `for i in range(0, cnt)` of lines 235-244: repaint the run
cells one by one and adjust both colour counters per cell. -/
def flipLoop (turn : Color) (row col dx dy : Int) (cnt : Nat)
    (st : Board × Int × Int) : Board × Int × Int :=
  (List.range cnt).foldl
    (fun st2 (i : Nat) =>
      let nx := row + dx * ((i : Int) + 1)
      let ny := col + dy * ((i : Int) + 1)
      let bd2 := setCell st2.1 nx ny (some turn)
      if turn = Color.black then
        (bd2, st2.2.1 + 1, st2.2.2 - 1)
      else
        (bd2, st2.2.1 - 1, st2.2.2 + 1))
    st

/-- Body of the direction loop of `take_action` (lines 205-244): scan the
current board in direction `d`; on a valid run, flip it in full. -/
def dirLoop (row col : Int) (turn : Color) (st : Board × Int × Int)
    (d : Int × Int) : Board × Int × Int :=
  match scanDir st.1 turn d.1 d.2 row col with
  | none => st
  | some cnt => flipLoop turn row col d.1 d.2 cnt st

/-- Move execution, from `take_action` (lines 194-245): place the piece at
`move`, bump the mover and total counters, then for each direction rescan
(on the board as mutated so far) and flip every valid run.  As in the
source, `row`/`col` (scan origin) and `move` (placement square) are separate
parameters; every call site passes the same square for both. -/
def take_action (row col : Int) (turn : Color) (board : Board)
    (b_cnt w_cnt t_cnt : Int) (move : Int × Int) : ActionResult :=
  let board1 := setCell board move.1 move.2 (some turn)
  let b1 := if turn = Color.black then b_cnt + 1 else b_cnt
  let w1 := if turn = Color.black then w_cnt else w_cnt + 1
  let t1 := t_cnt + 1
  let res := directions.foldl (dirLoop row col turn) (board1, b1, w1)
  ⟨res.1, res.2.1, res.2.2, t1⟩

/-- End-of-game test, from `check_end_status` (lines 247-257): true exactly
when one counter is zero or the board is full; the board itself and the
legal-move sets are never consulted. -/
def check_end_status (turn : Color) (b_cnt w_cnt t_cnt : Int) : Bool :=
  if b_cnt = 0 ∨ w_cnt = 0 then true
  else if t_cnt = (SIZE : Int) * SIZE then true
  else false

/-- Turn switch, from `Color.BLACK if turn != Color.BLACK else Color.WHITE`
(lines 281 and 328). -/
def switchTurn (turn : Color) : Color :=
  if turn ≠ Color.black then Color.black else Color.white

/-- Session state of `play_game`: the board plus the variables `turn`,
`b_cnt`, `w_cnt`, `t_cnt` (lines 260-272). -/
structure GameState where
  board : Board
  turn : Color
  b_cnt : Int
  w_cnt : Int
  t_cnt : Int

/-- Outcome of one iteration of the `while True` loop of `play_game`.
`pass` is the no-candidate branch (lines 279-282): switch user, consume no
input.  `illegal` is the failed `is_valid_move` branch (lines 312-314):
state unchanged, same player to move again.  `moved` is a completed move
with the game continuing (turn switched, line 328).  `gameOver` is the
`break` of lines 322-325; the values carried are exactly what the final
score line prints — the three raw counters.  The loop produces no other
datum at game end: no winner is ever computed. -/
inductive StepResult where
  | pass : GameState → StepResult
  | illegal : GameState → StepResult
  | moved : GameState → StepResult
  | gameOver : Int → Int → Int → StepResult

/-- One iteration of the `play_game` loop (lines 274-328) on an
already-parsed proposed coordinate `mv`.  Candidate computation comes first;
if empty the iteration is a pass and `mv` is not consumed.  Otherwise the
proposal is validated, applied via `take_action`, the end status is checked,
and the turn switches. -/
def stepGame (s : GameState) (mv : Int × Int) : StepResult :=
  let cands := next_steps s.turn s.board
  if cands = [] then
    StepResult.pass ⟨s.board, switchTurn s.turn, s.b_cnt, s.w_cnt, s.t_cnt⟩
  else if is_valid_move mv.1 mv.2 s.turn s.board then
    let r := take_action mv.1 mv.2 s.turn s.board s.b_cnt s.w_cnt s.t_cnt mv
    if check_end_status s.turn r.b_cnt r.w_cnt r.t_cnt then
      StepResult.gameOver r.b_cnt r.w_cnt r.t_cnt
    else
      StepResult.moved ⟨r.board, switchTurn s.turn, r.b_cnt, r.w_cnt, r.t_cnt⟩
  else
    StepResult.illegal s

/-- The opening board of `play_game` (lines 260-264). -/
def initBoard : Board := fun i j =>
  if i = 3 ∧ j = 3 then some Color.white
  else if i = 3 ∧ j = 4 then some Color.black
  else if i = 4 ∧ j = 3 then some Color.black
  else if i = 4 ∧ j = 4 then some Color.white
  else none

/-- The initial session state of `play_game` (lines 260-272). -/
def initState : GameState :=
  ⟨initBoard, Color.black, 2, 2, 4⟩

/-- C4: on the standard opening board, the candidate generator for Black
returns exactly the four squares (2,3), (3,2), (4,5), (5,4), in row-major
order — no more and no fewer. -/
theorem next_steps_opening_exact :
    next_steps Color.black initBoard =
      [((2 : Int), (3 : Int)), (3, 2), (4, 5), (5, 4)] := by
  decide

/-- The mid-game board of the narrative example (othello.py lines 35-43),
rows and columns 0-indexed; row 2 is the printed row 3. -/
def exampleBoard : Board := fun i j =>
  if i = 2 then
    if j = 3 then some Color.white
    else if j = 4 then some Color.black
    else if j = 5 then some Color.white
    else none
  else if i = 3 then
    if j = 2 then some Color.white
    else if j = 3 then some Color.black
    else if j = 4 then some Color.black
    else if j = 5 then some Color.white
    else if j = 6 then some Color.black
    else none
  else if i = 4 then
    if j = 1 then some Color.white
    else if j = 2 then some Color.black
    else if j = 3 then some Color.white
    else if j = 4 then some Color.black
    else if j = 5 then some Color.white
    else none
  else if i = 5 then
    if j = 1 then some Color.black
    else if j = 2 then some Color.white
    else if j = 3 then some Color.white
    else if j = 4 then some Color.white
    else if j = 5 then some Color.white
    else none
  else none

/-- Result of Black playing g6 = (5,6) on the example board; the counter
arguments 7/11/18 are the actual piece counts of `exampleBoard`. -/
def exampleResult : ActionResult :=
  take_action 5 6 Color.black exampleBoard 7 11 18 (5, 6)

/-- The six squares that change when Black plays g6 on the example board:
the placed piece g6 plus the flipped pieces f5, c6, d6, e6, f6. -/
def exampleChanged : List (Int × Int) :=
  [(5, 6), (4, 5), (5, 2), (5, 3), (5, 4), (5, 5)]

/-- C5: playing Black at (5,6) ("g6") on the narrative example board turns
exactly the placed square plus the five White pieces at c6, d6, e6, f5, f6
to Black, and changes no other square; the returned counters record the
placement and the five flips. -/
theorem take_action_example_flips :
    (∀ i j : Fin 8,
        exampleResult.board (i.val : Int) (j.val : Int) =
          if ((i.val : Int), (j.val : Int)) ∈ exampleChanged then
            some Color.black
          else exampleBoard (i.val : Int) (j.val : Int)) ∧
      exampleResult.b_cnt = 13 ∧ exampleResult.w_cnt = 6 ∧
      exampleResult.t_cnt = 19 := by
  decide

/-- A board on which neither colour has any legal move while both still have
pieces and the board is not full: a lone Black piece at (0,0) and a lone
White piece at (7,7).  Every empty square fails `is_valid_move` for both
colours since no direction starts with an adjacent opponent run. -/
def stuckBoard : Board := fun i j =>
  if i = 0 ∧ j = 0 then some Color.black
  else if i = 7 ∧ j = 7 then some Color.white
  else none

/-- The stuck session state with Black to move. -/
def stuckState : GameState :=
  ⟨stuckBoard, Color.black, 1, 1, 2⟩

/-- The stuck session state with White to move. -/
def stuckStateW : GameState :=
  ⟨stuckBoard, Color.white, 1, 1, 2⟩

/-- C2: on a state where both colours have empty legal-move sets, pieces
remain on each side, and the board is not full, `check_end_status` (which
looks only at the counters) returns false, and the `play_game` loop passes
without any game-over check: one iteration from `stuckState` is a pass to
`stuckStateW` and one iteration from `stuckStateW` is a pass straight back,
so the loop alternates passes forever and never reaches the game-over
branch, contradicting the specified transition to `GameOver`. -/
theorem double_pass_never_ends :
    next_steps Color.black stuckBoard = [] ∧
    next_steps Color.white stuckBoard = [] ∧
    stuckState.b_cnt ≠ 0 ∧ stuckState.w_cnt ≠ 0 ∧
    stuckState.t_cnt ≠ (SIZE : Int) * SIZE ∧
    check_end_status Color.black stuckState.b_cnt stuckState.w_cnt
      stuckState.t_cnt = false ∧
    check_end_status Color.white stuckState.b_cnt stuckState.w_cnt
      stuckState.t_cnt = false ∧
    stepGame stuckState (0, 0) = StepResult.pass stuckStateW ∧
    stepGame stuckStateW (0, 0) = StepResult.pass stuckState :=
  ⟨by decide, by decide, by decide, by decide, by decide, by decide,
    by decide, rfl, rfl⟩

/-- A board one Black move away from wiping White out: Black at (0,0),
White at (0,1); Black plays (0,2). -/
def wipeBoard : Board := fun i j =>
  if i = 0 ∧ j = 0 then some Color.black
  else if i = 0 ∧ j = 1 then some Color.white
  else none

/-- Session state for the wipe-out game, Black to move. -/
def wipeState : GameState :=
  ⟨wipeBoard, Color.black, 1, 1, 2⟩

/-- C3: what the loop actually produces when the game ends is the raw
counter triple of the final score printout (here 3/0/3) and nothing else:
`StepResult.gameOver` carries exactly the printed counters, and no code in
othello.py ever compares `b_cnt` with `w_cnt` to produce a winner or a tie,
although the module docstring requires the program to display the winner. -/
theorem game_end_output_is_raw_counts :
    stepGame wipeState (0, 2) = StepResult.gameOver 3 0 3 := rfl

/-- C8: a proposed coordinate that is in bounds but fails `is_valid_move`
while the mover does have candidates is rejected: the iteration returns
`illegal` carrying the very same state, so the board, all counters, and the
turn are unchanged and the same colour moves again. -/
theorem illegal_move_rejected (s : GameState) (mv : Int × Int)
    (hc : next_steps s.turn s.board ≠ [])
    (hin : inBoard mv.1 mv.2)
    (hv : is_valid_move mv.1 mv.2 s.turn s.board = false) :
    stepGame s mv = StepResult.illegal s := by
  unfold stepGame
  rw [if_neg hc, if_neg (by simp [hv])]

/-- Witness for C8: on the opening state, Black proposing the in-bounds but
illegal square (0,0) is rejected with the state unchanged. -/
theorem illegal_move_rejected_witness :
    stepGame initState (0, 0) = StepResult.illegal initState :=
  illegal_move_rejected initState (0, 0) (by decide) (by decide) (by decide)

/-- Measure for the scan loop: distance to the grid boundary along the
moving component of the direction. -/
def scanMeasure (dx dy x y : Int) : Nat :=
  if dx = 1 then (8 - x).toNat
  else if dx = -1 then (x + 1).toNat
  else if dy = 1 then (8 - y).toNat
  else (y + 1).toNat

/-- Each iteration of the scan loop strictly decreases the measure. -/
lemma scanMeasure_decrease {d : Int × Int} (hd : d ∈ directions) {x y : Int}
    (hin : inBoard x y) :
    scanMeasure d.1 d.2 (x + d.1) (y + d.2) < scanMeasure d.1 d.2 x y := by
  obtain ⟨hx0, hx8, hy0, hy8⟩ := hin
  norm_num [SIZE] at hx8 hy8
  fin_cases hd <;> norm_num [scanMeasure] <;> omega

/-- From the first square of the scan, the measure is below `SIZE`. -/
lemma scanMeasure_start_lt {d : Int × Int} (hd : d ∈ directions)
    {row col : Int} (hin : inBoard row col) :
    scanMeasure d.1 d.2 (row + d.1) (col + d.2) < SIZE := by
  obtain ⟨hx0, hx8, hy0, hy8⟩ := hin
  norm_num [SIZE] at hx8 hy8 ⊢
  fin_cases hd <;> norm_num [scanMeasure] <;> omega

/-- With fuel above the measure, the scan loop reaches one of its own
exits. -/
lemma scanAux_isSome_of_measure {bd : Board} {turn : Color} {d : Int × Int}
    (hd : d ∈ directions) :
    ∀ (fuel : Nat) (x y : Int) (cnt : Nat),
      scanMeasure d.1 d.2 x y < fuel →
      (scanAux bd turn d.1 d.2 fuel x y cnt).isSome = true := by
  intro fuel
  induction fuel with
  | zero => intro x y cnt h; omega
  | succ f ih =>
    intro x y cnt h
    simp only [scanAux]
    by_cases hin : inBoard x y
    · rw [if_pos hin]
      by_cases hemp : bd x y = none
      · rw [if_pos hemp]; rfl
      · rw [if_neg hemp]
        by_cases hown : bd x y = some turn
        · rw [if_pos hown]
          by_cases h0 : cnt = 0
          · rw [if_pos h0]; rfl
          · rw [if_neg h0]; rfl
        · rw [if_neg hown]
          exact ih _ _ _
            (by have := scanMeasure_decrease hd hin; omega)
    · rw [if_neg hin]; rfl

/-- A scan result obtained with some fuel is preserved by any larger
fuel: the fuel bound is inert once the loop exits naturally. -/
lemma scanAux_mono {bd : Board} {turn : Color} {dx dy : Int} :
    ∀ (fuel : Nat) (x y : Int) (cnt : Nat) (r : Option Nat),
      scanAux bd turn dx dy fuel x y cnt = some r →
      ∀ fuel2, fuel ≤ fuel2 → scanAux bd turn dx dy fuel2 x y cnt = some r := by
  intro fuel
  induction fuel with
  | zero => intro x y cnt r h; simp [scanAux] at h
  | succ f ih =>
    intro x y cnt r h fuel2 hle
    obtain ⟨f2, rfl⟩ : ∃ f2, fuel2 = f2 + 1 := by
      cases fuel2 with
      | zero => omega
      | succ f2 => exact ⟨f2, rfl⟩
    simp only [scanAux] at h ⊢
    by_cases hin : inBoard x y
    · rw [if_pos hin] at h ⊢
      by_cases hemp : bd x y = none
      · rw [if_pos hemp] at h ⊢; exact h
      · rw [if_neg hemp] at h ⊢
        by_cases hown : bd x y = some turn
        · rw [if_pos hown] at h ⊢; exact h
        · rw [if_neg hown] at h ⊢
          exact ih _ _ _ _ h f2 (by omega)
    · rw [if_neg hin] at h ⊢; exact h

/-- C9: for every board, colour, direction of the 8, and in-bounds origin,
the inner while loop of the two scans exits through one of its own
break/return paths within `SIZE` steps (the embedded fuel never runs out),
and giving the loop any more fuel does not change its result; hence
`is_valid_move` and `take_action` are total functions of in-bounds
inputs. -/
theorem scan_loops_end (bd : Board) (turn : Color) (d : Int × Int)
    (hd : d ∈ directions) (row col : Int) (hin : inBoard row col) :
    (scanAux bd turn d.1 d.2 SIZE (row + d.1) (col + d.2) 0).isSome = true ∧
    ∀ fuel : Nat, SIZE ≤ fuel →
      scanAux bd turn d.1 d.2 fuel (row + d.1) (col + d.2) 0 =
        scanAux bd turn d.1 d.2 SIZE (row + d.1) (col + d.2) 0 := by
  have h1 := @scanAux_isSome_of_measure bd turn d hd SIZE (row + d.1)
    (col + d.2) 0 (scanMeasure_start_lt hd hin)
  refine ⟨h1, ?_⟩
  intro fuel hf
  obtain ⟨r, hr⟩ := Option.isSome_iff_exists.mp h1
  rw [hr]
  exact scanAux_mono SIZE _ _ 0 r hr fuel hf

/-- Witness for C9: the eastward scan loop for Black from the in-bounds
square (3,3) of the opening board exits on its own and is fuel
independent. -/
theorem scan_loops_end_witness :
    (scanAux initBoard Color.black 0 1 SIZE (3 + 0) (3 + 1) 0).isSome
        = true ∧
    ∀ fuel : Nat, SIZE ≤ fuel →
      scanAux initBoard Color.black 0 1 fuel (3 + 0) (3 + 1) 0 =
        scanAux initBoard Color.black 0 1 SIZE (3 + 0) (3 + 1) 0 :=
  scan_loops_end initBoard Color.black (0, 1) (by decide) 3 3 (by decide)

/-- Opponent relation of the spec (section 3): Black and White oppose each
other; the function is total and involutive. -/
def otherColor : Color → Color
  | Color.black => Color.white
  | Color.white => Color.black

/-- The opponent colour differs from the own colour. -/
lemma otherColor_ne (turn : Color) : otherColor turn ≠ turn := by
  cases turn <;> simp [otherColor]

/-- A cell is neither empty nor of the own colour exactly when it holds the
opponent colour. -/
lemma cell_opp_iff (v : Option Color) (turn : Color) :
    (v ≠ none ∧ v ≠ some turn) ↔ v = some (otherColor turn) := by
  cases v with
  | none => cases turn <;> simp [otherColor]
  | some c => cases c <;> cases turn <;> simp [otherColor]

/-- Spec-side characterization of one valid flip direction, written from
the words of spec section 4.1: scanned outward starting one step from the
target there is a contiguous run of `n >= 1` opponent-colour cells, all in
bounds, terminated by an in-bounds cell of the mover own colour. -/
def specRun (bd : Board) (turn : Color) (row col : Int) (d : Int × Int)
    (n : Nat) : Prop :=
  1 ≤ n ∧
  (∀ i : Nat, 1 ≤ i → i ≤ n →
    inBoard (row + d.1 * (i : Int)) (col + d.2 * (i : Int)) ∧
      bd (row + d.1 * (i : Int)) (col + d.2 * (i : Int))
        = some (otherColor turn)) ∧
  inBoard (row + d.1 * ((n : Int) + 1)) (col + d.2 * ((n : Int) + 1)) ∧
  bd (row + d.1 * ((n : Int) + 1)) (col + d.2 * ((n : Int) + 1)) = some turn

/-- Soundness of the scan loop: if from counter state `cnt` it exits through
its valid-run path with value `m`, then the cells stepped over (multipliers
`cnt+1` to `m`) are in-bounds non-empty non-own cells and the stopping cell
(multiplier `m+1`) is an in-bounds own-colour cell. -/
lemma scanAux_valid_run (bd : Board) (turn : Color) (d : Int × Int)
    (row col : Int) :
    ∀ (fuel cnt m : Nat),
      scanAux bd turn d.1 d.2 fuel (row + d.1 * ((cnt : Int) + 1))
          (col + d.2 * ((cnt : Int) + 1)) cnt = some (some m) →
      1 ≤ m ∧ cnt ≤ m ∧
      (∀ i : Nat, cnt < i → i ≤ m →
        inBoard (row + d.1 * (i : Int)) (col + d.2 * (i : Int)) ∧
          bd (row + d.1 * (i : Int)) (col + d.2 * (i : Int)) ≠ none ∧
          bd (row + d.1 * (i : Int)) (col + d.2 * (i : Int)) ≠ some turn) ∧
      inBoard (row + d.1 * ((m : Int) + 1)) (col + d.2 * ((m : Int) + 1)) ∧
      bd (row + d.1 * ((m : Int) + 1)) (col + d.2 * ((m : Int) + 1))
        = some turn := by
  intro fuel
  induction fuel with
  | zero => intro cnt m h; simp [scanAux] at h
  | succ f ih =>
    intro cnt m h
    simp only [scanAux] at h
    by_cases hin : inBoard (row + d.1 * ((cnt : Int) + 1))
      (col + d.2 * ((cnt : Int) + 1))
    · rw [if_pos hin] at h
      by_cases hemp : bd (row + d.1 * ((cnt : Int) + 1))
          (col + d.2 * ((cnt : Int) + 1)) = none
      · rw [if_pos hemp] at h; simp at h
      · rw [if_neg hemp] at h
        by_cases hown : bd (row + d.1 * ((cnt : Int) + 1))
            (col + d.2 * ((cnt : Int) + 1)) = some turn
        · rw [if_pos hown] at h
          by_cases h0 : cnt = 0
          · rw [if_pos h0] at h; simp at h
          · rw [if_neg h0] at h
            have hm : cnt = m := by simpa using h
            subst hm
            refine ⟨by omega, Nat.le_refl _, ?_, hin, hown⟩
            intro i hi1 hi2
            omega
        · rw [if_neg hown] at h
          have hx : row + d.1 * ((cnt : Int) + 1) + d.1
              = row + d.1 * (((cnt + 1 : Nat) : Int) + 1) := by
            push_cast; ring
          have hy : col + d.2 * ((cnt : Int) + 1) + d.2
              = col + d.2 * (((cnt + 1 : Nat) : Int) + 1) := by
            push_cast; ring
          rw [hx, hy] at h
          obtain ⟨h1, h2, h3, h4, h5⟩ := ih (cnt + 1) m h
          refine ⟨h1, by omega, ?_, h4, h5⟩
          intro i hi1 hi2
          rcases Nat.eq_or_lt_of_le (Nat.succ_le_of_lt hi1) with heq | hlt
          · subst heq
            push_cast
            exact ⟨hin, hemp, hown⟩
          · exact h3 i hlt hi2
    · rw [if_neg hin] at h; simp at h

/-- Completeness of the scan loop: a spec-side run forces the loop, entered
at any counter state `cnt <= n` with enough fuel, to exit through its
valid-run path with value `n`. -/
lemma scanAux_of_run (bd : Board) (turn : Color) (d : Int × Int)
    (row col : Int) (n : Nat) (hn : 1 ≤ n)
    (hrun : ∀ i : Nat, 1 ≤ i → i ≤ n →
      inBoard (row + d.1 * (i : Int)) (col + d.2 * (i : Int)) ∧
        bd (row + d.1 * (i : Int)) (col + d.2 * (i : Int))
          = some (otherColor turn))
    (hin : inBoard (row + d.1 * ((n : Int) + 1)) (col + d.2 * ((n : Int) + 1)))
    (hterm : bd (row + d.1 * ((n : Int) + 1)) (col + d.2 * ((n : Int) + 1))
      = some turn) :
    ∀ (fuel cnt : Nat), cnt ≤ n → n - cnt < fuel →
      scanAux bd turn d.1 d.2 fuel (row + d.1 * ((cnt : Int) + 1))
        (col + d.2 * ((cnt : Int) + 1)) cnt = some (some n) := by
  intro fuel
  induction fuel with
  | zero => intro cnt hc hf; omega
  | succ f ih =>
    intro cnt hc hf
    rcases Nat.eq_or_lt_of_le hc with heq | hlt
    · subst heq
      simp only [scanAux]
      rw [if_pos hin, if_neg (by rw [hterm]; simp), if_pos hterm,
        if_neg (by omega)]
    · have hcell := hrun (cnt + 1) (by omega) (by omega)
      push_cast at hcell
      obtain ⟨hcin, hcop⟩ := hcell
      simp only [scanAux]
      rw [if_pos hcin, if_neg (by rw [hcop]; simp),
        if_neg (by rw [hcop]; simp; exact otherColor_ne turn)]
      have hx : row + d.1 * ((cnt : Int) + 1) + d.1
          = row + d.1 * (((cnt + 1 : Nat) : Int) + 1) := by push_cast; ring
      have hy : col + d.2 * ((cnt : Int) + 1) + d.2
          = col + d.2 * (((cnt + 1 : Nat) : Int) + 1) := by push_cast; ring
      rw [hx, hy]
      exact ih (cnt + 1) (by omega) (by omega)

/-- Inside the grid, at most 7 steps can be taken in any of the 8
directions from an in-bounds square while staying in bounds. -/
lemma run_step_bound {d : Int × Int} (hd : d ∈ directions) {row col : Int}
    (hin : inBoard row col) (k : Nat)
    (hin2 : inBoard (row + d.1 * (k : Int)) (col + d.2 * (k : Int))) :
    k < 8 := by
  obtain ⟨hx0, hx8, hy0, hy8⟩ := hin
  obtain ⟨ha, hb, hc, he⟩ := hin2
  norm_num [SIZE] at hx8 hy8 hb he
  fin_cases hd <;> norm_num at ha hb hc he <;> omega

/-- The direction scan succeeds exactly when the spec-side run predicate
holds for some length, for in-bounds targets and real directions. -/
lemma scanDir_some_iff (bd : Board) (turn : Color) (d : Int × Int)
    (hd : d ∈ directions) (row col : Int) (hin : inBoard row col) :
    (scanDir bd turn d.1 d.2 row col).isSome = true ↔
      ∃ n : Nat, specRun bd turn row col d n := by
  have hx0 : row + d.1 * (((0 : Nat) : Int) + 1) = row + d.1 := by
    push_cast; ring
  have hy0 : col + d.2 * (((0 : Nat) : Int) + 1) = col + d.2 := by
    push_cast; ring
  constructor
  · intro h
    unfold scanDir at h
    rcases hs : scanAux bd turn d.1 d.2 SIZE (row + d.1) (col + d.2) 0
      with _ | r
    · rw [hs] at h; simp at h
    · rcases r with _ | m
      · rw [hs] at h; simp at h
      · rw [← hx0, ← hy0] at hs
        obtain ⟨h1, _, h3, h4, h5⟩ :=
          scanAux_valid_run bd turn d row col SIZE 0 m hs
        refine ⟨m, h1, ?_, h4, h5⟩
        intro i hi1 hi2
        obtain ⟨hia, hib, hic⟩ := h3 i (by omega) hi2
        exact ⟨hia, (cell_opp_iff _ _).mp ⟨hib, hic⟩⟩
  · rintro ⟨n, hn1, hrun, hin2, hterm⟩
    have hbound : n + 1 < 8 := by
      refine run_step_bound hd hin (n + 1) ?_
      push_cast
      exact hin2
    have hs := scanAux_of_run bd turn d row col n hn1 hrun hin2 hterm
      SIZE 0 (by omega) (by simp only [SIZE]; omega)
    rw [hx0, hy0] at hs
    unfold scanDir
    rw [hs]
    rfl

/-- C1: for every board, colour and in-bounds target square, the legality
check returns false when the target is occupied, and otherwise returns true
exactly when some of the 8 directions carries a contiguous non-empty run of
opponent cells, scanned outward from one step past the target, terminated
in-bounds by a cell of the mover own colour. -/
theorem is_valid_move_matches_spec (bd : Board) (turn : Color)
    (row col : Int) (hin : inBoard row col) :
    (bd row col ≠ none → is_valid_move row col turn bd = false) ∧
    (bd row col = none →
      (is_valid_move row col turn bd = true ↔
        ∃ d ∈ directions, ∃ n : Nat, specRun bd turn row col d n)) := by
  constructor
  · intro h
    unfold is_valid_move
    rw [if_pos h]
  · intro h
    unfold is_valid_move
    rw [if_neg (by simp [h])]
    rw [List.any_eq_true]
    constructor
    · rintro ⟨dd, hdd, hsome⟩
      exact ⟨dd, hdd, (scanDir_some_iff bd turn dd hdd row col hin).mp hsome⟩
    · rintro ⟨dd, hdd, hn⟩
      exact ⟨dd, hdd, (scanDir_some_iff bd turn dd hdd row col hin).mpr hn⟩

/-- Witness for C1: on the opening board the empty in-bounds square (2,3)
is legal for Black if and only if some direction has a spec-side run, the
hypotheses being discharged concretely. -/
theorem is_valid_move_matches_spec_witness :
    is_valid_move 2 3 Color.black initBoard = true ↔
      ∃ d ∈ directions, ∃ n : Nat, specRun initBoard Color.black 2 3 d n :=
  (is_valid_move_matches_spec initBoard Color.black 2 3 (by decide)).2
    (by decide)

/-- C10: the end test is decided from the tracked counters alone — it holds
whenever one counter is zero, whatever the rest of the state — and in the
loop, a legal move whose resulting counters have a zero immediately
produces the game-over outcome carrying those counters, board fullness and
legal-move sets notwithstanding. -/
theorem wipeout_ends_game :
    (∀ (turn : Color) (b_cnt w_cnt t_cnt : Int), b_cnt = 0 ∨ w_cnt = 0 →
      check_end_status turn b_cnt w_cnt t_cnt = true) ∧
    ∀ (s : GameState) (mv : Int × Int),
      next_steps s.turn s.board ≠ [] →
      is_valid_move mv.1 mv.2 s.turn s.board = true →
      ((take_action mv.1 mv.2 s.turn s.board s.b_cnt s.w_cnt
          s.t_cnt mv).b_cnt = 0 ∨
        (take_action mv.1 mv.2 s.turn s.board s.b_cnt s.w_cnt
          s.t_cnt mv).w_cnt = 0) →
      stepGame s mv = StepResult.gameOver
        (take_action mv.1 mv.2 s.turn s.board s.b_cnt s.w_cnt
          s.t_cnt mv).b_cnt
        (take_action mv.1 mv.2 s.turn s.board s.b_cnt s.w_cnt
          s.t_cnt mv).w_cnt
        (take_action mv.1 mv.2 s.turn s.board s.b_cnt s.w_cnt
          s.t_cnt mv).t_cnt := by
  constructor
  · intro turn b_cnt w_cnt t_cnt h
    unfold check_end_status
    rw [if_pos h]
  · intro s mv hc hv hz
    simp only [stepGame]
    rw [if_neg hc, if_pos hv,
      if_pos (by unfold check_end_status; rw [if_pos hz])]

/-- Witness for C10: the end test fires on a zero counter, and the
wipe-out move (0,2) on the two-piece board ends the game at once with the
counters returned by the executor. -/
theorem wipeout_ends_game_witness :
    check_end_status Color.black 0 5 10 = true ∧
    stepGame wipeState (0, 2) = StepResult.gameOver
      (take_action 0 2 Color.black wipeBoard 1 1 2 (0, 2)).b_cnt
      (take_action 0 2 Color.black wipeBoard 1 1 2 (0, 2)).w_cnt
      (take_action 0 2 Color.black wipeBoard 1 1 2 (0, 2)).t_cnt :=
  ⟨wipeout_ends_game.1 Color.black 0 5 10 (Or.inl rfl),
    wipeout_ends_game.2 wipeState (0, 2) (by decide) (by decide) (by decide)⟩

/-- The 64 grid squares as a finite set of integer coordinate pairs. -/
def grid : Finset (Int × Int) :=
  Finset.Icc 0 7 ×ˢ Finset.Icc 0 7

/-- Number of squares holding colour `c`, recounted from the board. -/
def countColor (c : Color) (bd : Board) : Int :=
  Finset.sum grid fun p => if bd p.1 p.2 = some c then 1 else 0

/-- Number of occupied squares, recounted from the board. -/
def countOcc (bd : Board) : Int :=
  Finset.sum grid fun p => if bd p.1 p.2 = none then 0 else 1

/-- Number of empty squares, recounted from the board. -/
def countEmpty (bd : Board) : Int :=
  Finset.sum grid fun p => if bd p.1 p.2 = none then 1 else 0

/-- Grid membership is the in-bounds condition. -/
lemma mem_grid {p : Int × Int} : p ∈ grid ↔ inBoard p.1 p.2 := by
  have hS : (SIZE : Int) = 8 := by norm_num [SIZE]
  simp only [grid, Finset.mem_product, Finset.mem_Icc, hS]
  omega

/-- Every board partitions the 64 squares into black, white and empty. -/
lemma count_partition (bd : Board) :
    countColor Color.black bd + countColor Color.white bd + countEmpty bd
      = 64 := by
  unfold countColor countEmpty
  rw [← Finset.sum_add_distrib, ← Finset.sum_add_distrib]
  have hone : ∀ p ∈ grid,
      ((if bd p.1 p.2 = some Color.black then (1 : Int) else 0) +
        (if bd p.1 p.2 = some Color.white then 1 else 0)) +
        (if bd p.1 p.2 = none then 1 else 0) = 1 := by
    intro p _
    rcases h : bd p.1 p.2 with _ | c
    · simp [h]
    · cases c <;> simp [h]
  rw [Finset.sum_congr rfl hone, Finset.sum_const]
  have hcard : grid.card = 64 := by
    rw [grid, Finset.card_product]
    simp [Int.card_Icc]
  rw [hcard]
  simp

/-- Updating one in-bounds square changes any cellwise integer total by the
weight difference at that square. -/
lemma sum_grid_setCell (w : Option Color → Int) (bd : Board) (x y : Int)
    (v : Option Color) (h : inBoard x y) :
    (Finset.sum grid fun p => w (setCell bd x y v p.1 p.2))
      = (Finset.sum grid fun p => w (bd p.1 p.2)) - w (bd x y) + w v := by
  have hg : (x, y) ∈ grid := mem_grid.mpr h
  rw [← Finset.sum_erase_add _ _ hg, ← Finset.sum_erase_add _ _ hg]
  have hsame : (Finset.sum (grid.erase (x, y))
        fun p => w (setCell bd x y v p.1 p.2))
      = Finset.sum (grid.erase (x, y)) fun p => w (bd p.1 p.2) := by
    refine Finset.sum_congr rfl ?_
    intro p hp
    have hne : p ≠ (x, y) := Finset.ne_of_mem_erase hp
    have hcell : setCell bd x y v p.1 p.2 = bd p.1 p.2 := by
      unfold setCell
      rw [if_neg]
      rintro ⟨e1, e2⟩
      exact hne (Prod.ext_iff.mpr ⟨e1, e2⟩)
    rw [hcell]
  have hself : setCell bd x y v x y = v := by simp [setCell]
  rw [hsame, hself]
  ring

/-- Colour count after a single in-bounds square update. -/
lemma countColor_setCell (c : Color) (bd : Board) (x y : Int)
    (v : Option Color) (h : inBoard x y) :
    countColor c (setCell bd x y v)
      = countColor c bd - (if bd x y = some c then 1 else 0)
        + (if v = some c then 1 else 0) :=
  sum_grid_setCell (fun u => if u = some c then 1 else 0) bd x y v h

/-- Occupancy count after a single in-bounds square update. -/
lemma countOcc_setCell (bd : Board) (x y : Int) (v : Option Color)
    (h : inBoard x y) :
    countOcc (setCell bd x y v)
      = countOcc bd - (if bd x y = none then 0 else 1)
        + (if v = none then 0 else 1) :=
  sum_grid_setCell (fun u => if u = none then 0 else 1) bd x y v h

/-- Stepping different numbers of times in one direction from one origin
reaches different squares. -/
lemma shift_inj {d : Int × Int} (hd : d ∈ directions) {row col : Int}
    {i j : Nat}
    (h1 : row + d.1 * (i : Int) = row + d.1 * (j : Int))
    (h2 : col + d.2 * (i : Int) = col + d.2 * (j : Int)) : i = j := by
  fin_cases hd <;> simp at h1 h2 <;> omega

/-- Invariant of the flip loop: starting from a state whose counters match
its board and whose run cells (multipliers 1 to `cnt`) hold the opponent
colour, the loop repaints exactly the run cells with the mover colour,
keeps every other square, keeps occupancy, and keeps the counters matching
the board. -/
lemma flipLoop_invariant (turn : Color) (row col : Int)
    (d : Int × Int) (hd : d ∈ directions) :
    ∀ (cnt : Nat) (st : Board × Int × Int),
      (∀ i : Nat, 1 ≤ i → i ≤ cnt →
        inBoard (row + d.1 * (i : Int)) (col + d.2 * (i : Int)) ∧
          st.1 (row + d.1 * (i : Int)) (col + d.2 * (i : Int))
            = some (otherColor turn)) →
      st.2.1 = countColor Color.black st.1 →
      st.2.2 = countColor Color.white st.1 →
      (flipLoop turn row col d.1 d.2 cnt st).2.1
          = countColor Color.black (flipLoop turn row col d.1 d.2 cnt st).1 ∧
      (flipLoop turn row col d.1 d.2 cnt st).2.2
          = countColor Color.white (flipLoop turn row col d.1 d.2 cnt st).1 ∧
      countOcc (flipLoop turn row col d.1 d.2 cnt st).1 = countOcc st.1 ∧
      (∀ x y : Int,
        (∃ i : Nat, 1 ≤ i ∧ i ≤ cnt ∧ x = row + d.1 * (i : Int)
            ∧ y = col + d.2 * (i : Int)) →
          (flipLoop turn row col d.1 d.2 cnt st).1 x y = some turn) ∧
      (∀ x y : Int,
        (∀ i : Nat, 1 ≤ i → i ≤ cnt →
          ¬(x = row + d.1 * (i : Int) ∧ y = col + d.2 * (i : Int))) →
          (flipLoop turn row col d.1 d.2 cnt st).1 x y = st.1 x y) := by
  intro cnt
  induction cnt with
  | zero =>
    intro st hrun hb hw
    refine ⟨hb, hw, rfl, ?_, ?_⟩
    · rintro x y ⟨i, hi1, hi2, _, _⟩
      omega
    · intro x y _
      rfl
  | succ k ih =>
    intro st hrun hb hw
    obtain ⟨ihb, ihw, ihocc, ihset, ihkeep⟩ :=
      ih st (fun i h1 h2 => hrun i h1 (by omega)) hb hw
    have hstep : flipLoop turn row col d.1 d.2 (k + 1) st
        = (if turn = Color.black then
            (setCell (flipLoop turn row col d.1 d.2 k st).1
                (row + d.1 * ((k : Int) + 1)) (col + d.2 * ((k : Int) + 1))
                (some turn),
              (flipLoop turn row col d.1 d.2 k st).2.1 + 1,
              (flipLoop turn row col d.1 d.2 k st).2.2 - 1)
          else
            (setCell (flipLoop turn row col d.1 d.2 k st).1
                (row + d.1 * ((k : Int) + 1)) (col + d.2 * ((k : Int) + 1))
                (some turn),
              (flipLoop turn row col d.1 d.2 k st).2.1 - 1,
              (flipLoop turn row col d.1 d.2 k st).2.2 + 1)) := by
      simp only [flipLoop, List.range_succ, List.foldl_append,
        List.foldl_cons, List.foldl_nil]
    have hcell := hrun (k + 1) (by omega) (by omega)
    push_cast at hcell
    obtain ⟨hcin, hcop⟩ := hcell
    have hkeepcell : (flipLoop turn row col d.1 d.2 k st).1
        (row + d.1 * ((k : Int) + 1)) (col + d.2 * ((k : Int) + 1))
        = st.1 (row + d.1 * ((k : Int) + 1))
            (col + d.2 * ((k : Int) + 1)) := by
      apply ihkeep
      intro i hi1 hi2 hxy
      obtain ⟨hx, hy⟩ := hxy
      have hx2 : row + d.1 * (((k + 1 : Nat)) : Int)
          = row + d.1 * (i : Int) := by push_cast; exact hx
      have hy2 : col + d.2 * (((k + 1 : Nat)) : Int)
          = col + d.2 * (i : Int) := by push_cast; exact hy
      have := shift_inj hd hx2 hy2
      omega
    have hold : (flipLoop turn row col d.1 d.2 k st).1
        (row + d.1 * ((k : Int) + 1)) (col + d.2 * ((k : Int) + 1))
        = some (otherColor turn) := by rw [hkeepcell, hcop]
    have hsetself : setCell (flipLoop turn row col d.1 d.2 k st).1
        (row + d.1 * ((k : Int) + 1)) (col + d.2 * ((k : Int) + 1))
        (some turn) (row + d.1 * ((k : Int) + 1))
        (col + d.2 * ((k : Int) + 1)) = some turn := by
      simp [setCell]
    have hcount := fun c => countColor_setCell c
      (flipLoop turn row col d.1 d.2 k st).1
      (row + d.1 * ((k : Int) + 1)) (col + d.2 * ((k : Int) + 1))
      (some turn) hcin
    have hocc := countOcc_setCell (flipLoop turn row col d.1 d.2 k st).1
      (row + d.1 * ((k : Int) + 1)) (col + d.2 * ((k : Int) + 1))
      (some turn) hcin
    rw [hold] at hcount hocc
    have hset4 : ∀ x y : Int,
        (∃ i : Nat, 1 ≤ i ∧ i ≤ k + 1 ∧ x = row + d.1 * (i : Int)
            ∧ y = col + d.2 * (i : Int)) →
        setCell (flipLoop turn row col d.1 d.2 k st).1
          (row + d.1 * ((k : Int) + 1)) (col + d.2 * ((k : Int) + 1))
          (some turn) x y = some turn := by
      rintro x y ⟨i, hi1, hi2, rfl, rfl⟩
      by_cases hik : i = k + 1
      · subst hik
        unfold setCell
        rw [if_pos ⟨by push_cast; ring, by push_cast; ring⟩]
      · unfold setCell
        rw [if_neg]
        · exact ihset _ _ ⟨i, hi1, by omega, rfl, rfl⟩
        · rintro ⟨hx, hy⟩
          have hx2 : row + d.1 * ((i : Nat) : Int)
              = row + d.1 * (((k + 1 : Nat)) : Int) := by push_cast; exact hx
          have hy2 : col + d.2 * ((i : Nat) : Int)
              = col + d.2 * (((k + 1 : Nat)) : Int) := by push_cast; exact hy
          exact hik (shift_inj hd hx2 hy2)
    have hkeep4 : ∀ x y : Int,
        (∀ i : Nat, 1 ≤ i → i ≤ k + 1 →
          ¬(x = row + d.1 * (i : Int) ∧ y = col + d.2 * (i : Int))) →
        setCell (flipLoop turn row col d.1 d.2 k st).1
          (row + d.1 * ((k : Int) + 1)) (col + d.2 * ((k : Int) + 1))
          (some turn) x y = st.1 x y := by
      intro x y hxy
      unfold setCell
      rw [if_neg]
      · exact ihkeep x y fun i h1 h2 => hxy i h1 (by omega)
      · rintro ⟨hx, hy⟩
        refine hxy (k + 1) (by omega) (by omega) ⟨?_, ?_⟩
        · push_cast
          exact hx
        · push_cast
          exact hy
    rw [hstep]
    cases turn with
    | black =>
      rw [if_pos rfl]
      refine ⟨?_, ?_, ?_, hset4, hkeep4⟩
      · show (flipLoop Color.black row col d.1 d.2 k st).2.1 + 1
          = countColor Color.black (setCell _ _ _ _)
        rw [hcount Color.black, ihb]
        simp [otherColor]
      · show (flipLoop Color.black row col d.1 d.2 k st).2.2 - 1
          = countColor Color.white (setCell _ _ _ _)
        rw [hcount Color.white, ihw]
        simp [otherColor]
      · show countOcc (setCell _ _ _ _) = countOcc st.1
        rw [hocc, ihocc]
        simp
    | white =>
      rw [if_neg (by simp)]
      refine ⟨?_, ?_, ?_, hset4, hkeep4⟩
      · show (flipLoop Color.white row col d.1 d.2 k st).2.1 - 1
          = countColor Color.black (setCell _ _ _ _)
        rw [hcount Color.black, ihb]
        simp [otherColor]
      · show (flipLoop Color.white row col d.1 d.2 k st).2.2 + 1
          = countColor Color.white (setCell _ _ _ _)
        rw [hcount Color.white, ihw]
        simp [otherColor]
      · show countOcc (setCell _ _ _ _) = countOcc st.1
        rw [hocc, ihocc]
        simp

/-- A successful direction scan yields a non-empty run of in-bounds
opponent cells at multipliers 1 to `cnt`. -/
lemma scanDir_run (bd : Board) (turn : Color) (d : Int × Int)
    (hd : d ∈ directions) (row col : Int) (cnt : Nat)
    (h : scanDir bd turn d.1 d.2 row col = some cnt) :
    1 ≤ cnt ∧ ∀ i : Nat, 1 ≤ i → i ≤ cnt →
      inBoard (row + d.1 * (i : Int)) (col + d.2 * (i : Int)) ∧
        bd (row + d.1 * (i : Int)) (col + d.2 * (i : Int))
          = some (otherColor turn) := by
  have hx0 : row + d.1 * (((0 : Nat) : Int) + 1) = row + d.1 := by
    push_cast; ring
  have hy0 : col + d.2 * (((0 : Nat) : Int) + 1) = col + d.2 := by
    push_cast; ring
  unfold scanDir at h
  rcases hs : scanAux bd turn d.1 d.2 SIZE (row + d.1) (col + d.2) 0
    with _ | r
  · rw [hs] at h; simp at h
  · rcases r with _ | m
    · rw [hs] at h; simp at h
    · rw [hs] at h
      simp only [Option.getD_some, Option.some.injEq] at h
      subst h
      rw [← hx0, ← hy0] at hs
      obtain ⟨h1, _, h3, _, _⟩ :=
        scanAux_valid_run bd turn d row col SIZE 0 m hs
      refine ⟨h1, ?_⟩
      intro i hi1 hi2
      obtain ⟨hia, hib, hic⟩ := h3 i (by omega) hi2
      exact ⟨hia, (cell_opp_iff _ _).mp ⟨hib, hic⟩⟩

/-- Invariant of the direction loop of `take_action`: folding `dirLoop`
over any sublist of the 8 directions preserves that the counters match the
board, that occupancy is one above the original, that the placed piece
stands, and that every square either is unchanged from the original board
or is an in-bounds square now of the mover colour that originally held the
opponent colour (or is the placement square itself). -/
lemma dirFold_invariant (orig : Board) (turn : Color) (row col : Int) :
    ∀ ds : List (Int × Int), (∀ d ∈ ds, d ∈ directions) →
    ∀ st : Board × Int × Int,
      st.2.1 = countColor Color.black st.1 →
      st.2.2 = countColor Color.white st.1 →
      countOcc st.1 = countOcc orig + 1 →
      st.1 row col = some turn →
      (∀ x y : Int, st.1 x y = orig x y ∨
        (inBoard x y ∧ st.1 x y = some turn ∧
          (orig x y = some (otherColor turn) ∨ (x = row ∧ y = col)))) →
      (ds.foldl (dirLoop row col turn) st).2.1
          = countColor Color.black (ds.foldl (dirLoop row col turn) st).1 ∧
      (ds.foldl (dirLoop row col turn) st).2.2
          = countColor Color.white (ds.foldl (dirLoop row col turn) st).1 ∧
      countOcc (ds.foldl (dirLoop row col turn) st).1 = countOcc orig + 1 ∧
      (ds.foldl (dirLoop row col turn) st).1 row col = some turn ∧
      (∀ x y : Int,
        (ds.foldl (dirLoop row col turn) st).1 x y = orig x y ∨
        (inBoard x y ∧
          (ds.foldl (dirLoop row col turn) st).1 x y = some turn ∧
          (orig x y = some (otherColor turn) ∨ (x = row ∧ y = col)))) := by
  intro ds
  induction ds with
  | nil =>
    intro _ st hb hw hocc hctr hpt
    exact ⟨hb, hw, hocc, hctr, hpt⟩
  | cons d ds ihds =>
    intro hds st hb hw hocc hctr hpt
    have hd : d ∈ directions := hds d (by simp)
    have hds2 : ∀ d2 ∈ ds, d2 ∈ directions := fun d2 h => hds d2 (by simp [h])
    rw [List.foldl_cons]
    rcases hscan : scanDir st.1 turn d.1 d.2 row col with _ | cnt
    · have hdl : dirLoop row col turn st d = st := by simp [dirLoop, hscan]
      rw [hdl]
      exact ihds hds2 st hb hw hocc hctr hpt
    · have hdl : dirLoop row col turn st d
          = flipLoop turn row col d.1 d.2 cnt st := by simp [dirLoop, hscan]
      rw [hdl]
      obtain ⟨hcnt1, hrun⟩ := scanDir_run st.1 turn d hd row col cnt hscan
      obtain ⟨fb, fw, focc, fset, fkeep⟩ :=
        flipLoop_invariant turn row col d hd cnt st hrun hb hw
      have hnotctr : ∀ i : Nat, 1 ≤ i → i ≤ cnt →
          ¬(row = row + d.1 * (i : Int) ∧ col = col + d.2 * (i : Int)) := by
        rintro i hi1 hi2 ⟨hx, hy⟩
        have hx2 : row + d.1 * ((i : Nat) : Int)
            = row + d.1 * (((0 : Nat)) : Int) := by
          push_cast
          linarith [hx]
        have hy2 : col + d.2 * ((i : Nat) : Int)
            = col + d.2 * (((0 : Nat)) : Int) := by
          push_cast
          linarith [hy]
        have := shift_inj hd hx2 hy2
        omega
      have hctr2 : (flipLoop turn row col d.1 d.2 cnt st).1 row col
          = some turn := by
        rw [fkeep row col hnotctr]
        exact hctr
      have hpt2 : ∀ x y : Int,
          (flipLoop turn row col d.1 d.2 cnt st).1 x y = orig x y ∨
          (inBoard x y ∧
            (flipLoop turn row col d.1 d.2 cnt st).1 x y = some turn ∧
            (orig x y = some (otherColor turn) ∨ (x = row ∧ y = col))) := by
        intro x y
        by_cases hm : ∃ i : Nat, 1 ≤ i ∧ i ≤ cnt ∧
            x = row + d.1 * (i : Int) ∧ y = col + d.2 * (i : Int)
        · obtain ⟨i, hi1, hi2, rfl, rfl⟩ := hm
          right
          refine ⟨(hrun i hi1 hi2).1,
            fset _ _ ⟨i, hi1, hi2, rfl, rfl⟩, Or.inl ?_⟩
          rcases hpt (row + d.1 * (i : Int)) (col + d.2 * (i : Int))
            with he | ⟨_, hturn, _⟩
          · rw [← he]
            exact (hrun i hi1 hi2).2
          · exfalso
            have h1 := (hrun i hi1 hi2).2
            rw [hturn] at h1
            exact otherColor_ne turn (Option.some.inj h1).symm
        · have hkeepxy := fkeep x y
            (fun i h1 h2 hxy => hm ⟨i, h1, h2, hxy.1, hxy.2⟩)
          rw [hkeepxy]
          exact hpt x y
      exact ihds hds2 (flipLoop turn row col d.1 d.2 cnt st) fb fw
        (focc.trans hocc) hctr2 hpt2

/-- A move accepted by the legality check targets an empty square. -/
lemma is_valid_move_empty {row col : Int} {turn : Color} {bd : Board}
    (h : is_valid_move row col turn bd = true) : bd row col = none := by
  by_contra hne
  unfold is_valid_move at h
  rw [if_pos hne] at h
  simp at h

/-- Full invariant of `take_action` on a legal move whose counter arguments
equal the recounts of the input board: the returned counters match the
result board, occupancy grew by one, the placed piece stands, and every
square is either unchanged or a flipped opponent square (or the placement
square). -/
lemma take_action_invariant (orig : Board) (turn : Color) (row col : Int)
    (hin : inBoard row col) (hv : is_valid_move row col turn orig = true)
    (r : ActionResult)
    (hr : r = take_action row col turn orig (countColor Color.black orig)
      (countColor Color.white orig) (countOcc orig) (row, col)) :
    r.b_cnt = countColor Color.black r.board ∧
    r.w_cnt = countColor Color.white r.board ∧
    countOcc r.board = countOcc orig + 1 ∧
    r.t_cnt = countOcc orig + 1 ∧
    r.board row col = some turn ∧
    (∀ x y : Int, r.board x y = orig x y ∨
      (inBoard x y ∧ r.board x y = some turn ∧
        (orig x y = some (otherColor turn) ∨ (x = row ∧ y = col)))) := by
  have hemp : orig row col = none := is_valid_move_empty hv
  have hb0 : (if turn = Color.black then countColor Color.black orig + 1
        else countColor Color.black orig)
      = countColor Color.black (setCell orig row col (some turn)) := by
    rw [countColor_setCell Color.black orig row col (some turn) hin, hemp]
    cases turn <;> simp
  have hw0 : (if turn = Color.black then countColor Color.white orig
        else countColor Color.white orig + 1)
      = countColor Color.white (setCell orig row col (some turn)) := by
    rw [countColor_setCell Color.white orig row col (some turn) hin, hemp]
    cases turn <;> simp
  have hocc0 : countOcc (setCell orig row col (some turn))
      = countOcc orig + 1 := by
    rw [countOcc_setCell orig row col (some turn) hin, hemp]
    simp
  have hctr0 : setCell orig row col (some turn) row col = some turn := by
    simp [setCell]
  have hpt0 : ∀ x y : Int, setCell orig row col (some turn) x y = orig x y ∨
      (inBoard x y ∧ setCell orig row col (some turn) x y = some turn ∧
        (orig x y = some (otherColor turn) ∨ (x = row ∧ y = col))) := by
    intro x y
    by_cases hxy : x = row ∧ y = col
    · right
      obtain ⟨hx, hy⟩ := hxy
      subst hx
      subst hy
      exact ⟨hin, hctr0, Or.inr ⟨rfl, rfl⟩⟩
    · left
      unfold setCell
      rw [if_neg hxy]
  have hfold := dirFold_invariant orig turn row col directions
    (fun d h => h)
    (setCell orig row col (some turn),
      (if turn = Color.black then countColor Color.black orig + 1
        else countColor Color.black orig),
      (if turn = Color.black then countColor Color.white orig
        else countColor Color.white orig + 1))
    hb0 hw0 hocc0 hctr0 hpt0
  obtain ⟨fb, fw, focc, fctr, fpt⟩ := hfold
  subst hr
  exact ⟨fb, fw, focc, rfl, fctr, fpt⟩

/-- Squares flipped by a move: the squares of the grid whose content
changed, the placement square excluded. -/
def flippedSquares (bd : Board) (r : ActionResult) (row col : Int) :
    Finset (Int × Int) :=
  (grid.filter fun p => r.board p.1 p.2 ≠ bd p.1 p.2).erase (row, col)

/-- C6: executing a legal move whose counter arguments equal the recounts
of the input board returns counters that again equal the recounts of the
result board; the mover count grows by exactly one plus the number of
flipped squares, the opponent count shrinks by exactly the number of
flipped squares, and occupancy grows by exactly one. -/
theorem take_action_count_deltas (bd : Board) (turn : Color) (row col : Int)
    (b_cnt w_cnt t_cnt : Int) (hin : inBoard row col)
    (hv : is_valid_move row col turn bd = true)
    (hb : b_cnt = countColor Color.black bd)
    (hw : w_cnt = countColor Color.white bd)
    (ht : t_cnt = countOcc bd) :
    (take_action row col turn bd b_cnt w_cnt t_cnt (row, col)).b_cnt
      = countColor Color.black
        (take_action row col turn bd b_cnt w_cnt t_cnt (row, col)).board ∧
    (take_action row col turn bd b_cnt w_cnt t_cnt (row, col)).w_cnt
      = countColor Color.white
        (take_action row col turn bd b_cnt w_cnt t_cnt (row, col)).board ∧
    (take_action row col turn bd b_cnt w_cnt t_cnt (row, col)).t_cnt
      = countOcc
        (take_action row col turn bd b_cnt w_cnt t_cnt (row, col)).board ∧
    countColor turn
        (take_action row col turn bd b_cnt w_cnt t_cnt (row, col)).board
      = countColor turn bd + 1
        + ((flippedSquares bd
            (take_action row col turn bd b_cnt w_cnt t_cnt (row, col))
            row col).card : Int) ∧
    countColor (otherColor turn)
        (take_action row col turn bd b_cnt w_cnt t_cnt (row, col)).board
      = countColor (otherColor turn) bd
        - ((flippedSquares bd
            (take_action row col turn bd b_cnt w_cnt t_cnt (row, col))
            row col).card : Int) ∧
    countOcc
        (take_action row col turn bd b_cnt w_cnt t_cnt (row, col)).board
      = countOcc bd + 1 := by
  subst hb
  subst hw
  subst ht
  obtain ⟨ib, iw, iocc, it, ictr, ipt⟩ :=
    take_action_invariant bd turn row col hin hv _ rfl
  have hemp : bd row col = none := is_valid_move_empty hv
  set r := take_action row col turn bd (countColor Color.black bd)
    (countColor Color.white bd) (countOcc bd) (row, col) with hrdef
  have hsome_ne : (some turn : Option Color) ≠ some (otherColor turn) := by
    simp
    intro h
    exact otherColor_ne turn h.symm
  have hctrS : (row, col) ∈
      (grid.filter fun p => r.board p.1 p.2 ≠ bd p.1 p.2) := by
    rw [Finset.mem_filter]
    refine ⟨mem_grid.mpr hin, ?_⟩
    show r.board row col ≠ bd row col
    rw [ictr, hemp]
    simp
  have hflip : ∀ p ∈
      (grid.filter fun p => r.board p.1 p.2 ≠ bd p.1 p.2).erase (row, col),
      bd p.1 p.2 = some (otherColor turn) ∧ r.board p.1 p.2 = some turn := by
    intro p hp
    have hne : p ≠ (row, col) := Finset.ne_of_mem_erase hp
    have hpS := Finset.mem_of_mem_erase hp
    rw [Finset.mem_filter] at hpS
    obtain ⟨hpg, hpne⟩ := hpS
    rcases ipt p.1 p.2 with he | ⟨_, hturn, hcase⟩
    · exact absurd he hpne
    · rcases hcase with horig | ⟨hx, hy⟩
      · exact ⟨horig, hturn⟩
      · exact absurd (Prod.ext_iff.mpr ⟨hx, hy⟩) hne
  have hdiff : ∀ c : Color, countColor c r.board - countColor c bd
      = Finset.sum (grid.filter fun p => r.board p.1 p.2 ≠ bd p.1 p.2)
        (fun p => (if r.board p.1 p.2 = some c then (1 : Int) else 0)
          - (if bd p.1 p.2 = some c then 1 else 0)) := by
    intro c
    unfold countColor
    rw [← Finset.sum_sub_distrib]
    symm
    apply Finset.sum_subset (Finset.filter_subset _ _)
    intro p hpg hpn
    rw [Finset.mem_filter] at hpn
    push_neg at hpn
    rw [hpn hpg]
    ring
  have hsplit : ∀ g : (Int × Int) → Int,
      Finset.sum (grid.filter fun p => r.board p.1 p.2 ≠ bd p.1 p.2) g
        = Finset.sum
            ((grid.filter fun p => r.board p.1 p.2 ≠ bd p.1 p.2).erase
              (row, col)) g + g (row, col) :=
    fun g => (Finset.sum_erase_add _ g hctrS).symm
  have hmover : countColor turn r.board - countColor turn bd
      = (((grid.filter fun p => r.board p.1 p.2 ≠ bd p.1 p.2).erase
          (row, col)).card : Int) + 1 := by
    rw [hdiff turn, hsplit]
    have h1 : ∀ p ∈
        (grid.filter fun p => r.board p.1 p.2 ≠ bd p.1 p.2).erase (row, col),
        ((if r.board p.1 p.2 = some turn then (1 : Int) else 0)
          - (if bd p.1 p.2 = some turn then 1 else 0)) = 1 := by
      intro p hp
      obtain ⟨hbd, hrr⟩ := hflip p hp
      rw [hbd, hrr, if_pos rfl, if_neg (fun h => hsome_ne h.symm)]
      norm_num
    rw [Finset.sum_congr rfl h1, Finset.sum_const]
    have h2 : ((if r.board (row, col).1 (row, col).2 = some turn
          then (1 : Int) else 0)
        - (if bd (row, col).1 (row, col).2 = some turn then 1 else 0))
        = 1 := by
      show ((if r.board row col = some turn then (1 : Int) else 0)
        - (if bd row col = some turn then 1 else 0)) = 1
      rw [ictr, hemp]
      simp
    rw [h2]
    simp [nsmul_eq_mul]
  have hopp : countColor (otherColor turn) r.board
      - countColor (otherColor turn) bd
      = -(((grid.filter fun p => r.board p.1 p.2 ≠ bd p.1 p.2).erase
          (row, col)).card : Int) := by
    rw [hdiff (otherColor turn), hsplit]
    have h1 : ∀ p ∈
        (grid.filter fun p => r.board p.1 p.2 ≠ bd p.1 p.2).erase (row, col),
        ((if r.board p.1 p.2 = some (otherColor turn) then (1 : Int) else 0)
          - (if bd p.1 p.2 = some (otherColor turn) then 1 else 0))
          = -1 := by
      intro p hp
      obtain ⟨hbd, hrr⟩ := hflip p hp
      rw [hbd, hrr, if_pos rfl, if_neg hsome_ne]
      norm_num
    rw [Finset.sum_congr rfl h1, Finset.sum_const]
    have h2 : ((if r.board (row, col).1 (row, col).2
            = some (otherColor turn) then (1 : Int) else 0)
        - (if bd (row, col).1 (row, col).2 = some (otherColor turn)
            then 1 else 0)) = 0 := by
      show ((if r.board row col = some (otherColor turn)
          then (1 : Int) else 0)
        - (if bd row col = some (otherColor turn) then 1 else 0)) = 0
      rw [ictr, hemp, if_neg hsome_ne]
      simp
    rw [h2]
    simp [nsmul_eq_mul]
  refine ⟨ib, iw, it.trans iocc.symm, ?_, ?_, iocc⟩
  · unfold flippedSquares
    linarith [hmover]
  · unfold flippedSquares
    linarith [hopp]

/-- Witness for C6: Black opening move (2,3), with counter arguments 2/2/4
equal to the recounts of the opening board, satisfies all six count
properties. -/
theorem take_action_count_deltas_witness :
    (take_action 2 3 Color.black initBoard 2 2 4 (2, 3)).b_cnt
      = countColor Color.black
        (take_action 2 3 Color.black initBoard 2 2 4 (2, 3)).board ∧
    (take_action 2 3 Color.black initBoard 2 2 4 (2, 3)).w_cnt
      = countColor Color.white
        (take_action 2 3 Color.black initBoard 2 2 4 (2, 3)).board ∧
    (take_action 2 3 Color.black initBoard 2 2 4 (2, 3)).t_cnt
      = countOcc (take_action 2 3 Color.black initBoard 2 2 4 (2, 3)).board ∧
    countColor Color.black
        (take_action 2 3 Color.black initBoard 2 2 4 (2, 3)).board
      = countColor Color.black initBoard + 1
        + ((flippedSquares initBoard
            (take_action 2 3 Color.black initBoard 2 2 4 (2, 3))
            2 3).card : Int) ∧
    countColor (otherColor Color.black)
        (take_action 2 3 Color.black initBoard 2 2 4 (2, 3)).board
      = countColor (otherColor Color.black) initBoard
        - ((flippedSquares initBoard
            (take_action 2 3 Color.black initBoard 2 2 4 (2, 3))
            2 3).card : Int) ∧
    countOcc (take_action 2 3 Color.black initBoard 2 2 4 (2, 3)).board
      = countOcc initBoard + 1 :=
  take_action_count_deltas initBoard Color.black 2 3 2 2 4 (by decide)
    (by decide) (by decide) (by decide) (by decide)

/-- Reachable session states of `play_game`: the initial state and
everything produced by loop iterations (passes, rejected proposals,
completed non-ending moves).  Proposed coordinates reach the loop only
through `parse_coordinate` (lines 123-133), which guarantees in-bounds
values, hence the in-bounds hypothesis on the input. -/
inductive Reachable : GameState → Prop where
  | init : Reachable initState
  | pass {s s2 : GameState} {mv : Int × Int} : Reachable s →
      inBoard mv.1 mv.2 → stepGame s mv = StepResult.pass s2 → Reachable s2
  | illegal {s s2 : GameState} {mv : Int × Int} : Reachable s →
      inBoard mv.1 mv.2 → stepGame s mv = StepResult.illegal s2 →
      Reachable s2
  | moved {s s2 : GameState} {mv : Int × Int} : Reachable s →
      inBoard mv.1 mv.2 → stepGame s mv = StepResult.moved s2 → Reachable s2

/-- In every reachable session state the tracked counters equal the
recounts of the session board. -/
lemma reachable_tracked (s : GameState) (h : Reachable s) :
    s.b_cnt = countColor Color.black s.board ∧
    s.w_cnt = countColor Color.white s.board ∧
    s.t_cnt = countOcc s.board := by
  induction h with
  | init => exact ⟨by decide, by decide, by decide⟩
  | pass hr hmv hstep ih =>
    rename_i s s2 mv
    simp only [stepGame] at hstep
    by_cases hc : next_steps s.turn s.board = []
    · rw [if_pos hc] at hstep
      injection hstep with h2
      subst h2
      exact ⟨ih.1, ih.2.1, ih.2.2⟩
    · rw [if_neg hc] at hstep
      by_cases hv : is_valid_move mv.1 mv.2 s.turn s.board = true
      · rw [if_pos hv] at hstep
        split at hstep <;> simp at hstep
      · rw [if_neg hv] at hstep
        simp at hstep
  | illegal hr hmv hstep ih =>
    rename_i s s2 mv
    simp only [stepGame] at hstep
    by_cases hc : next_steps s.turn s.board = []
    · rw [if_pos hc] at hstep
      simp at hstep
    · rw [if_neg hc] at hstep
      by_cases hv : is_valid_move mv.1 mv.2 s.turn s.board = true
      · rw [if_pos hv] at hstep
        split at hstep <;> simp at hstep
      · rw [if_neg hv] at hstep
        injection hstep with h2
        subst h2
        exact ih
  | moved hr hmv hstep ih =>
    rename_i s s2 mv
    simp only [stepGame] at hstep
    by_cases hc : next_steps s.turn s.board = []
    · rw [if_pos hc] at hstep
      simp at hstep
    · rw [if_neg hc] at hstep
      by_cases hv : is_valid_move mv.1 mv.2 s.turn s.board = true
      · rw [if_pos hv] at hstep
        obtain ⟨ihb, ihw, iht⟩ := ih
        have hdel := take_action_count_deltas s.board s.turn mv.1 mv.2
          s.b_cnt s.w_cnt s.t_cnt hmv hv ihb ihw iht
        split at hstep
        · simp at hstep
        · injection hstep with h2
          subst h2
          exact ⟨hdel.1, hdel.2.1, hdel.2.2.1⟩
      · rw [if_neg hv] at hstep
        simp at hstep

/-- C7: in the initial session state and after every loop iteration — a
pass, a rejected proposal, or a completed move — the tracked black and
white counters plus the number of empty squares of the session board equal
64. -/
theorem session_counts_sum_64 (s : GameState) (h : Reachable s) :
    s.b_cnt + s.w_cnt + countEmpty s.board = 64 := by
  obtain ⟨hb, hw, _⟩ := reachable_tracked s h
  have hp := count_partition s.board
  rw [hb, hw]
  linarith

/-- Witness for C7: the invariant at the initial state, 2 + 2 + 60 = 64. -/
theorem session_counts_sum_64_witness :
    initState.b_cnt + initState.w_cnt + countEmpty initState.board = 64 :=
  session_counts_sum_64 initState Reachable.init
